import Mathlib

/-
Verification of the object-lifecycle and type-hierarchy substrate of
src/components/script/dom/mod.rs (Servo's DOM module documentation).

The module file documents the design: emulated single inheritance with
the superclass stored by value as the first field, runtime type tags with
one extra variant for a directly instantiable parent class, FooCast
upcast/downcast operations, the two-phase new_inherited/new construction
protocol, Root-stack discipline, Trusted cross-task handles, LayoutJS
unrooted views, and SpiderMonkey-driven finalization. The executable
mechanisms live in submodules (dom::bindings::*) that are not part of the
source tree here, so each mechanism is modelled from the spec, faithful
to its words, and the claims are settled against these models.
-/

/-- Modelled from the spec: the emulated single-inheritance DOM class
hierarchy used by the spec's scenarios. The node side is the chain
`Element → Node → EventTarget` with the unrelated sibling `Text`, and the
event side is `MouseEvent / KeyboardEvent → UIEvent → Event` from the
typeid example in the module documentation. -/
inductive DOMClass where
  | EventTarget
  | Node
  | Element
  | Text
  | Event
  | UIEvent
  | MouseEvent
  | KeyboardEvent
  deriving DecidableEq, Repr, Fintype

/-- Modelled from the spec: the immediate superclass of each DOM class in
the emulated hierarchy (`none` for a hierarchy root). -/
def parentClass : DOMClass → Option DOMClass
  | .EventTarget => none
  | .Node => some .EventTarget
  | .Element => some .Node
  | .Text => some .Node
  | .Event => none
  | .UIEvent => some .Event
  | .MouseEvent => some .UIEvent
  | .KeyboardEvent => some .UIEvent

/-- Modelled from the spec: the full ancestor chain of a class, starting
with the class itself (every class is its own trivial ancestor). -/
def ancestorChain : DOMClass → List DOMClass
  | .EventTarget => [.EventTarget]
  | .Node => [.Node, .EventTarget]
  | .Element => [.Element, .Node, .EventTarget]
  | .Text => [.Text, .Node, .EventTarget]
  | .Event => [.Event]
  | .UIEvent => [.UIEvent, .Event]
  | .MouseEvent => [.MouseEvent, .UIEvent, .Event]
  | .KeyboardEvent => [.KeyboardEvent, .UIEvent, .Event]

/-- Whether `d` is `a` or a (transitive) subclass of `a`. -/
def derivesFrom (d a : DOMClass) : Bool :=
  decide (a ∈ ancestorChain d)

/-- Sanity check tying the chains to `parentClass`: the ancestor chain of a
class is the class followed by its parent's chain. -/
theorem ancestorChain_consistent (c : DOMClass) :
    ancestorChain c =
      c :: (match parentClass c with
            | none => []
            | some p => ancestorChain p) := by
  cases c <;> rfl

/-- Modelled from the spec: a reference to a DOM object. `addr` is the
address identity of the native aggregate and `runtimeTag` is the Type Tag
describing the exact runtime class, computed once at construction. A
reference statically typed as class `A` is a `DomRef` whose runtime tag
derives from `A`. -/
structure DomRef where
  addr : Nat
  runtimeTag : DOMClass
  deriving DecidableEq, Repr

/-- Whether a `DomRef` is well typed at static type `A`. -/
def wellTypedAt (A : DOMClass) (r : DomRef) : Prop :=
  derivesFrom r.runtimeTag A = true

/-- Modelled from the spec: `FooCast::from_ref`, the upcast from a
reference to an ancestor class `A`. Because the ancestor's aggregate
occupies the same memory address (layout invariant), the upcast is a
free offset-0 reinterpretation: the reference is unchanged. -/
def castFromRef (A : DOMClass) (r : DomRef) : DomRef :=
  let _ := A
  r

/-- Modelled from the spec: `FooCast::to_ref`, the downcast to descendant
class `D`. It checks the Type Tag: it succeeds, yielding the same
reference, exactly when the runtime value is `D` or a subclass of `D`;
otherwise it yields the empty result. -/
def castToRef (D : DOMClass) (r : DomRef) : Option DomRef :=
  if derivesFrom r.runtimeTag D then some r else none

/-- Modelled from the spec: the type-tag enumeration for the `UIEvent`
hierarchy level, copied from the module documentation's example: one
variant per derived class plus one variant for "is exactly a UIEvent". -/
inductive UIEventTypeId where
  | MouseEvent
  | KeyboardEvent
  | UIEvent
  deriving DecidableEq, Repr

/-- Modelled from the spec: the type-tag enumeration for the `Event`
hierarchy level. The module documentation's example shows the
`UIEvent(UIEventTypeId)` variant and elides the remaining ones
("//others events"); since `Event` is itself directly instantiable, the
spec's rule that the tag include one entry per hierarchy level —
including "is exactly this ancestor type, no further subclass" —
requires the `Event` variant alongside the per-subclass variants. -/
inductive EventTypeId where
  | Event
  | UIEvent (id : UIEventTypeId)
  deriving DecidableEq, Repr

/-- Every DOM class in the model, used to enumerate children of a level. -/
def allClasses : List DOMClass :=
  [.EventTarget, .Node, .Element, .Text, .Event, .UIEvent, .MouseEvent, .KeyboardEvent]

/-- The direct subclasses of a class. -/
def childClasses (c : DOMClass) : List DOMClass :=
  allClasses.filter (fun d => decide (parentClass d = some c))

/-- Modelled from the spec: which classes are directly instantiable (can
be the most-derived class of an object), as opposed to only subclassed.
`UIEvent` is the documentation's example of an instantiable parent. -/
def directlyInstantiable : DOMClass → Bool
  | .EventTarget => false
  | .Node => false
  | .Element => true
  | .Text => true
  | .Event => true
  | .UIEvent => true
  | .MouseEvent => true
  | .KeyboardEvent => true

/-- The variants of `UIEventTypeId`, listed for enumeration. -/
def uiEventTagVariants : List UIEventTypeId :=
  [.MouseEvent, .KeyboardEvent, .UIEvent]

/-- The variants of `EventTypeId`, listed for enumeration (the nested
`UIEvent` payloads ranging over the whole `UIEventTypeId` level). -/
def eventTagVariants : List EventTypeId :=
  .Event :: uiEventTagVariants.map EventTypeId.UIEvent

/-- What a variant of the `UIEvent`-level enumeration asserts at that
level: `none` means "exactly a `UIEvent`, no further subclass", `some c`
means "the derived class `c`". -/
def uiEventLevelView : UIEventTypeId → Option DOMClass
  | .MouseEvent => some .MouseEvent
  | .KeyboardEvent => some .KeyboardEvent
  | .UIEvent => none

/-- What a variant of the `Event`-level enumeration asserts at that
level: `none` means "exactly an `Event`", and every `UIEvent _` variant
means "the derived class `UIEvent`" (refined further by its payload). -/
def eventLevelView : EventTypeId → Option DOMClass
  | .Event => none
  | .UIEvent _ => some .UIEvent

/-- The level-wise denotations of the type-tag enumeration of each
hierarchy level that has its own derived-type enumeration in the modelled
source: one list entry per enumeration variant, in variant order, `none`
standing for the "exactly the parent class" entry. -/
def levelTagViews : DOMClass → Option (List (Option DOMClass))
  | .UIEvent => some (uiEventTagVariants.map uiEventLevelView)
  | .Event => some (eventTagVariants.map eventLevelView)
  | _ => none

/-- C1: upcasting a reference of type `D` to an ancestor `A`
(`FooCast::from_ref`) and then downcasting back to `D`
(`FooCast::to_ref`) succeeds and returns a reference with the same
identity (the very same reference, hence the same address) as the
original. -/
theorem upcast_downcast_roundtrip (D A : DOMClass) (r : DomRef)
    (hD : derivesFrom r.runtimeTag D = true)
    (_hDA : derivesFrom D A = true) :
    castToRef D (castFromRef A r) = some r ∧
    (castFromRef A r).addr = r.addr := by
  refine ⟨?_, rfl⟩
  simp [castFromRef, castToRef, hD]

/-- Witness for C1: the spec's scenario. An `Element` (ancestor chain
`Node → EventTarget`) at address 42, upcast to `EventTarget` and downcast
back to `Element`, is returned unchanged. -/
theorem upcast_downcast_roundtrip_witness :
    castToRef .Element (castFromRef .EventTarget ⟨42, .Element⟩) =
      some ⟨42, .Element⟩ ∧
    (castFromRef .EventTarget (⟨42, .Element⟩ : DomRef)).addr = 42 :=
  upcast_downcast_roundtrip .Element .EventTarget ⟨42, .Element⟩
    (by decide) (by decide)

/-- C2: a downcast to a class `D2` that the runtime tag does not derive
from yields the empty result, and a successful downcast only ever returns
the original reference — never a fabricated one. The operation is a total
function into `Option`, so failure is an ordinary value, not a panic. -/
theorem downcast_unrelated_none (D2 : DOMClass) (r : DomRef) :
    (derivesFrom r.runtimeTag D2 = false → castToRef D2 r = none) ∧
    (∀ r', castToRef D2 r = some r' → r' = r) := by
  constructor
  · intro h
    simp [castToRef, h]
  · intro r' h
    by_cases hd : derivesFrom r.runtimeTag D2 = true
    · simp [castToRef, hd] at h
      exact h.symm
    · simp [castToRef, hd] at h

/-- Witness for C2: downcasting the rooted `Element` of the scenario to
the unrelated sibling `Text` yields the empty result. -/
theorem downcast_unrelated_none_witness :
    castToRef .Text (⟨42, .Element⟩ : DomRef) = none :=
  (downcast_unrelated_none .Text ⟨42, .Element⟩).1 (by decide)

/-- The variant list of `UIEventTypeId` misses no variant, so
`levelTagViews` describes the whole enumeration. -/
theorem uiEventTagVariants_complete (t : UIEventTypeId) :
    t ∈ uiEventTagVariants := by
  cases t <;> simp [uiEventTagVariants]

/-- The variant list of `EventTypeId` misses no variant, so
`levelTagViews` describes the whole enumeration. -/
theorem eventTagVariants_complete (t : EventTypeId) :
    t ∈ eventTagVariants := by
  cases t with
  | Event => simp [eventTagVariants]
  | UIEvent id =>
    exact List.mem_cons_of_mem _
      (List.mem_map.mpr ⟨id, uiEventTagVariants_complete id, rfl⟩)

/-- C7: for every hierarchy level whose parent class is directly
instantiable (in this model all such levels are `Event` and `UIEvent`,
and both have a tag enumeration), the enumeration carries exactly one
variant denoting "exactly the parent class, no further subclass", at
least one variant per derived class, and no variant denoting anything
else; collapsing equal denotations, the level distinguishes exactly one
more case than it has derived classes — the extra one being the parent
itself. -/
theorem tag_has_exact_parent_variant (p : DOMClass) (vs : List (Option DOMClass))
    (hinst : directlyInstantiable p = true)
    (hvs : levelTagViews p = some vs) :
    vs.count none = 1 ∧
    (∀ c, c ∈ childClasses p → some c ∈ vs) ∧
    (∀ x, x ∈ vs → x = none ∨ ∃ c, c ∈ childClasses p ∧ x = some c) ∧
    vs.dedup.length = (childClasses p).length + 1 := by
  cases p <;> simp [levelTagViews] at hvs <;> subst hvs
  · exact ⟨by decide, by decide, by decide, by decide⟩
  · exact ⟨by decide, by decide, by decide, by decide⟩

/-- Witness for C7: both instantiable-parent levels of the model,
`UIEvent` and `Event`, concretely: each enumeration has exactly one
"exactly the parent" variant and distinguishes one more case than its
number of derived classes. -/
theorem tag_has_exact_parent_variant_witness :
    ((uiEventTagVariants.map uiEventLevelView).count none = 1 ∧
     (uiEventTagVariants.map uiEventLevelView).dedup.length =
       (childClasses .UIEvent).length + 1) ∧
    ((eventTagVariants.map eventLevelView).count none = 1 ∧
     (eventTagVariants.map eventLevelView).dedup.length =
       (childClasses .Event).length + 1) := by
  have h1 := tag_has_exact_parent_variant .UIEvent
    (uiEventTagVariants.map uiEventLevelView) (by decide) rfl
  have h2 := tag_has_exact_parent_variant .Event
    (eventTagVariants.map eventLevelView) (by decide) rfl
  exact ⟨⟨h1.1, h1.2.2.2⟩, ⟨h2.1, h2.2.2.2⟩⟩

/-- Field visibility as declared in the Rust module. -/
inductive Visibility where
  | fieldPrivate
  | fieldPublic
  deriving DecidableEq, Repr

/-- The kind of a struct field: the Reflector handle, a tracing field
wrapper slot (a JS-managed member pointer), or plain data. -/
inductive FieldKind where
  | reflectorField
  | tracingSlot (target : DOMClass)
  | plainData
  deriving DecidableEq, Repr

/-- A field declaration of a DOM struct. -/
structure FieldDecl where
  fname : String
  kind : FieldKind
  vis : Visibility
  deriving DecidableEq, Repr

/-- The `Reflector` member that every hierarchy root starts with. -/
def reflectorDecl : FieldDecl :=
  ⟨"reflector_", .reflectorField, .fieldPrivate⟩

/-- Modelled from the spec: the fields each class declares itself, beyond
the inherited prefix. All fields of DOM objects are private. -/
def ownFields : DOMClass → List FieldDecl
  | .EventTarget => [⟨"handlers", .plainData, .fieldPrivate⟩]
  | .Node => [⟨"type_id", .plainData, .fieldPrivate⟩,
              ⟨"parent_node", .tracingSlot .Node, .fieldPrivate⟩,
              ⟨"first_child", .tracingSlot .Node, .fieldPrivate⟩]
  | .Element => [⟨"local_name", .plainData, .fieldPrivate⟩,
                 ⟨"attrs", .plainData, .fieldPrivate⟩]
  | .Text => [⟨"data", .plainData, .fieldPrivate⟩]
  | .Event => [⟨"current_target", .tracingSlot .EventTarget, .fieldPrivate⟩,
               ⟨"type_", .plainData, .fieldPrivate⟩]
  | .UIEvent => [⟨"view", .plainData, .fieldPrivate⟩,
                 ⟨"detail", .plainData, .fieldPrivate⟩]
  | .MouseEvent => [⟨"screen_x", .plainData, .fieldPrivate⟩,
                    ⟨"related_target", .tracingSlot .EventTarget, .fieldPrivate⟩]
  | .KeyboardEvent => [⟨"key", .plainData, .fieldPrivate⟩]

/-- The layout of each hierarchy root: its Reflector, then its own
fields. -/
def eventTargetLayout : List FieldDecl := reflectorDecl :: ownFields .EventTarget

/-- Layout of `Node`: the `EventTarget` superclass stored by value as the
first field, then `Node`'s own fields. -/
def nodeLayout : List FieldDecl := eventTargetLayout ++ ownFields .Node

/-- Layout of `Element`: `Node` by value first, then own fields. -/
def elementLayout : List FieldDecl := nodeLayout ++ ownFields .Element

/-- Layout of `Text`: `Node` by value first, then own fields. -/
def textLayout : List FieldDecl := nodeLayout ++ ownFields .Text

/-- Layout of the `Event` hierarchy root. -/
def eventLayout : List FieldDecl := reflectorDecl :: ownFields .Event

/-- Layout of `UIEvent`: `Event` by value first, then own fields. -/
def uiEventLayout : List FieldDecl := eventLayout ++ ownFields .UIEvent

/-- Layout of `MouseEvent`: `UIEvent` by value first, then own fields. -/
def mouseEventLayout : List FieldDecl := uiEventLayout ++ ownFields .MouseEvent

/-- Layout of `KeyboardEvent`: `UIEvent` by value first, then own
fields. -/
def keyboardEventLayout : List FieldDecl := uiEventLayout ++ ownFields .KeyboardEvent

/-- Modelled from the spec: the flattened field layout of each DOM
struct, with the superclass aggregate stored by value as a prefix. -/
def layout : DOMClass → List FieldDecl
  | .EventTarget => eventTargetLayout
  | .Node => nodeLayout
  | .Element => elementLayout
  | .Text => textLayout
  | .Event => eventLayout
  | .UIEvent => uiEventLayout
  | .MouseEvent => mouseEventLayout
  | .KeyboardEvent => keyboardEventLayout

/-- The shape of the first member a DOM struct can declare. A reference
member is representable but, by the layout invariant, never used. -/
inductive FirstMember where
  | reflectorMember
  | superclassByValue (p : DOMClass)
  | referenceMember (p : DOMClass)
  deriving DecidableEq, Repr

/-- Modelled from the spec: the first member each DOM struct declares, as
written in its `#[dom_struct]` definition. -/
def firstMember : DOMClass → FirstMember
  | .EventTarget => .reflectorMember
  | .Node => .superclassByValue .EventTarget
  | .Element => .superclassByValue .Node
  | .Text => .superclassByValue .Node
  | .Event => .reflectorMember
  | .UIEvent => .superclassByValue .Event
  | .MouseEvent => .superclassByValue .UIEvent
  | .KeyboardEvent => .superclassByValue .UIEvent

/-- Whether a first member is a reference (pointer indirection). -/
def isReferenceMember : FirstMember → Bool
  | .referenceMember _ => true
  | _ => false

/-- C3: for every DOM class, the first declared member is the Reflector
exactly at hierarchy roots and otherwise the immediate superclass stored
by value — never a reference; transitively the first field of the
flattened layout is the Reflector, and the layout of every ancestor is a
prefix of the layout of the class (`take` of the same length), so a
pointer to an instance reinterprets, with no runtime check, as a valid
pointer to each ancestor at the same address (offset 0). -/
theorem layout_superclass_prefix (c a : DOMClass) :
    isReferenceMember (firstMember c) = false ∧
    firstMember c = (match parentClass c with
                     | none => FirstMember.reflectorMember
                     | some p => FirstMember.superclassByValue p) ∧
    (layout c).head? = some reflectorDecl ∧
    (derivesFrom c a = true →
      (layout c).take (layout a).length = layout a) := by
  revert c a
  decide

/-- Witness for C3: `Element` over its ancestor `Node`: first member is
`Node` by value, the transitive first field is the Reflector, and
`Node`'s layout is the leading prefix of `Element`'s layout. -/
theorem layout_superclass_prefix_witness :
    isReferenceMember (firstMember .Element) = false ∧
    firstMember .Element = .superclassByValue .Node ∧
    (layout .Element).head? = some reflectorDecl ∧
    (layout .Element).take (layout .Node).length = layout .Node := by
  have h := layout_superclass_prefix .Element .Node
  exact ⟨h.1, h.2.1, h.2.2.1, h.2.2.2 (by decide)⟩

/-- The getter a DOM type offers for one of its (private) fields:
access from outside the module goes through this accessor. -/
def getterFor (c : DOMClass) (f : String) : Option FieldKind :=
  ((layout c).find? (fun d => d.fname == f)).map (·.kind)

/-- Modelled from the spec: whether code outside the type's module may
touch a field directly, which Rust permits only for public fields. -/
def directAccessAllowed (c : DOMClass) (f : String) : Bool :=
  (layout c).any (fun d => d.fname == f && d.vis == .fieldPublic)

/-- C10: every field of every DOM struct is private to its module, hence
no field is directly accessible from outside the module, while every
declared field is reachable through an explicit accessor (`getterFor`). -/
theorem fields_private_accessor_only (c : DOMClass) :
    (∀ d ∈ layout c, d.vis = .fieldPrivate) ∧
    (∀ f, directAccessAllowed c f = false) ∧
    (∀ d ∈ layout c, ∃ k, getterFor c d.fname = some k) := by
  refine ⟨?_, ?_, ?_⟩
  · intro d hd
    cases c <;> revert d hd <;> decide
  · intro f
    rw [directAccessAllowed]
    rw [List.any_eq_false]
    intro d hd
    have hv : d.vis = .fieldPrivate := by
      cases c <;> revert d hd <;> decide
    simp [hv]
  · intro d hd
    rw [getterFor]
    have : ((layout c).find? (fun e => e.fname == d.fname)).isSome := by
      rw [List.find?_isSome]
      exact ⟨d, hd, by simp⟩
    rcases Option.isSome_iff_exists.mp this with ⟨e, he⟩
    exact ⟨e.kind, by rw [he]; rfl⟩

/-- Witness for C10: the `first_child` field of `Node` is private, not
directly accessible, and has an accessor. -/
theorem fields_private_accessor_only_witness :
    directAccessAllowed .Node "first_child" = false ∧
    ∃ k, getterFor .Node "first_child" = some k := by
  have h := fields_private_accessor_only .Node
  exact ⟨h.2.1 "first_child",
    h.2.2 ⟨"first_child", .tracingSlot .Node, .fieldPrivate⟩ (by decide)⟩

/-- Modelled from the spec: one operation on the thread-local root stack.
`rootPush id` is the creation of a `Root` guard for entry `id`;
`rootPop id` is the guard's destruction at scope exit, which must find
its own entry on top of the stack. -/
inductive RootOp where
  | rootPush (id : Nat)
  | rootPop (id : Nat)
  deriving DecidableEq, Repr

/-- Modelled from the spec: the effect of one root-stack operation.
Popping an entry that is not on top (or popping an empty stack) is a
fatal programming error — modelled as `none`, from which no continuation
recovers — never a recoverable outcome. -/
def applyRootOp (st : List Nat) : RootOp → Option (List Nat)
  | .rootPush id => some (id :: st)
  | .rootPop id =>
    match st with
    | [] => none
    | top :: rest => if top = id then some rest else none

/-- Run a sequence of root-stack operations, aborting at the first
discipline violation. -/
def runRootOps (ops : List RootOp) (st : List Nat) : Option (List Nat) :=
  ops.foldl (fun acc op => acc.bind (fun s => applyRootOp s op)) (some st)

/-- Sequences of root/unroot operations performed in strict scope order:
empty, one scope wrapping a well-scoped body, or two well-scoped
sequences in succession. -/
inductive ScopedOps : List RootOp → Prop
  | nil : ScopedOps []
  | wrap (id : Nat) (s : List RootOp) :
      ScopedOps s → ScopedOps (RootOp.rootPush id :: (s ++ [RootOp.rootPop id]))
  | seq (s1 s2 : List RootOp) :
      ScopedOps s1 → ScopedOps s2 → ScopedOps (s1 ++ s2)

theorem runRootOps_append (s1 s2 : List RootOp) (st : List Nat) :
    runRootOps (s1 ++ s2) st =
      (runRootOps s1 st).bind (fun s => runRootOps s2 s) := by
  rw [runRootOps, List.foldl_append]
  rcases h : runRootOps s1 st with _ | st1
  · rw [runRootOps] at h
    rw [h]
    induction s2 with
    | nil => rfl
    | cons op rest ih => simpa [List.foldl_cons] using ih
  · rw [runRootOps] at h
    rw [h]
    rfl

theorem runRootOps_scoped (ops : List RootOp) (h : ScopedOps ops)
    (st : List Nat) : runRootOps ops st = some st := by
  induction h generalizing st with
  | nil => rfl
  | wrap id s _ ih =>
    have hpush : runRootOps [RootOp.rootPush id] st = some (id :: st) := rfl
    calc runRootOps (RootOp.rootPush id :: (s ++ [RootOp.rootPop id])) st
        = runRootOps ([RootOp.rootPush id] ++ (s ++ [RootOp.rootPop id])) st := rfl
      _ = (runRootOps [RootOp.rootPush id] st).bind
            (fun s1 => runRootOps (s ++ [RootOp.rootPop id]) s1) :=
          runRootOps_append _ _ _
      _ = runRootOps (s ++ [RootOp.rootPop id]) (id :: st) := by rw [hpush]; rfl
      _ = (runRootOps s (id :: st)).bind
            (fun s1 => runRootOps [RootOp.rootPop id] s1) := runRootOps_append _ _ _
      _ = runRootOps [RootOp.rootPop id] (id :: st) := by rw [ih]; rfl
      _ = some st := by simp [runRootOps, applyRootOp]
  | seq s1 s2 _ _ ih1 ih2 =>
    rw [runRootOps_append, ih1]
    exact ih2 st

/-- C6: rooting obeys strict stack discipline. (a) Every sequence of
root/unroot operations performed in strict scope order — each guard
popped exactly when its scope exits, hence pops in exactly the reverse
order of the pushes — restores the root stack, so starting from the empty
stack, the stack is empty after the outermost scope exits. (b) An
out-of-order unroot (the popped entry is not the most recent live one) is
fatal: the whole run aborts (`none`), regardless of what operations
follow — it is never a recoverable outcome. -/
theorem root_stack_discipline :
    (∀ ops, ScopedOps ops → runRootOps ops [] = some []) ∧
    (∀ id top rest more, top ≠ id →
      runRootOps (RootOp.rootPop id :: more) (top :: rest) = none) := by
  constructor
  · intro ops h
    exact runRootOps_scoped ops h []
  · intro id top rest more htop
    have h1 : applyRootOp (top :: rest) (RootOp.rootPop id) = none := by
      simp [applyRootOp, htop]
    calc runRootOps (RootOp.rootPop id :: more) (top :: rest)
        = runRootOps ([RootOp.rootPop id] ++ more) (top :: rest) := rfl
      _ = (runRootOps [RootOp.rootPop id] (top :: rest)).bind
            (fun s => runRootOps more s) := runRootOps_append _ _ _
      _ = none := by
          have : runRootOps [RootOp.rootPop id] (top :: rest) = none := by
            simp [runRootOps, h1]
          rw [this]
          rfl

/-- Witness for C6: the nested scopes root 1 / root 2 / unroot 2 /
unroot 1 leave the stack empty, and unrooting entry 1 while entry 2 is
still on top is fatal even with further operations pending. -/
theorem root_stack_discipline_witness :
    runRootOps [RootOp.rootPush 1, RootOp.rootPush 2,
                RootOp.rootPop 2, RootOp.rootPop 1] [] = some [] ∧
    runRootOps [RootOp.rootPop 1, RootOp.rootPop 2] [2, 1] = none := by
  constructor
  · exact root_stack_discipline.1
      [RootOp.rootPush 1, RootOp.rootPush 2, RootOp.rootPop 2, RootOp.rootPop 1]
      (ScopedOps.wrap 1 [RootOp.rootPush 2, RootOp.rootPop 2]
        (ScopedOps.wrap 2 [] ScopedOps.nil))
  · exact root_stack_discipline.2 1 2 [1] [RootOp.rootPop 2] (by decide)

/-- Modelled from the spec: a native DOM aggregate as the collector sees
it: its class, its embedded Managed-Object Handle (`none` until the
reflector is created), and the handles held in its tracing field
wrappers, which the collector's mark phase enumerates. -/
structure HeapObject where
  cls : DOMClass
  reflectorHandle : Option Nat
  traced : List Nat
  deriving DecidableEq, Repr

/-- Modelled from the spec: the collector-visible state. `heap` maps each
collector-side peer (identified by its Managed-Object Handle) to the
native aggregate it owns; `rootStack` is the thread-local root stack;
`trustedTable` is the process-wide refcount table backing `Trusted`
handles; `nextHandle` is the allocator cursor. -/
structure GcState where
  heap : List (Nat × HeapObject)
  rootStack : List Nat
  trustedTable : List (Nat × Nat)
  nextHandle : Nat
  deriving DecidableEq, Repr

/-- The handles of the objects currently owned by the collector. -/
def heapHandles (st : GcState) : List Nat :=
  st.heap.map (·.1)

/-- Look a handle up in the collector heap. -/
def heapLookup (heap : List (Nat × HeapObject)) (h : Nat) : Option HeapObject :=
  (heap.find? (fun e => e.1 == h)).map (·.2)

/-- The handles rooted by live `Trusted` boxes: table entries whose
reference count is positive. -/
def trustedRoots (st : GcState) : List Nat :=
  (st.trustedTable.filter (fun e => decide (0 < e.2))).map (·.1)

/-- All roots the collector must honour: the thread-local root stack and
the live cross-boundary handles. -/
def rootsOf (st : GcState) : List Nat :=
  st.rootStack ++ trustedRoots st

/-- One mark step: keep the current set and add everything the tracing
field wrappers of its members reference. -/
def stepReach (heap : List (Nat × HeapObject)) (cur : List Nat) : List Nat :=
  (cur ++ cur.flatMap (fun h => ((heapLookup heap h).map (·.traced)).getD [])).dedup

/-- Iterate the mark step. -/
def reachIter (heap : List (Nat × HeapObject)) : Nat → List Nat → List Nat
  | 0, cur => cur
  | n + 1, cur => reachIter heap n (stepReach heap cur)

/-- Modelled from the spec: the set of handles the mark phase finds live,
starting from the roots and following tracing-field edges to a fixpoint
(heap-length many steps suffice). -/
def reachableSet (st : GcState) : List Nat :=
  reachIter st.heap st.heap.length (rootsOf st)

/-- Modelled from the spec: one collection. The sweep keeps exactly the
objects the mark phase reached and invokes the finalization hook — which
deletes the native aggregate — once for each reclaimed peer; the returned
list is the sequence of handles whose hooks ran. -/
def collect (st : GcState) : GcState × List Nat :=
  let live := reachableSet st
  ({ st with heap := st.heap.filter (fun e => decide (e.1 ∈ live)) },
   (st.heap.filter (fun e => decide (¬ e.1 ∈ live))).map (·.1))

/-- Run `n` successive collections. -/
def iterateCollect : Nat → GcState → GcState
  | 0, st => st
  | n + 1, st => iterateCollect n (collect st).1

theorem mem_stepReach_of_mem {heap : List (Nat × HeapObject)} {cur : List Nat}
    {a : Nat} (h : a ∈ cur) : a ∈ stepReach heap cur := by
  rw [stepReach, List.mem_dedup]
  exact List.mem_append_left _ h

theorem mem_reachIter_of_mem {heap : List (Nat × HeapObject)} :
    ∀ (n : Nat) {cur : List Nat} {a : Nat}, a ∈ cur → a ∈ reachIter heap n cur
  | 0, _, _, h => h
  | n + 1, _, _, h => mem_reachIter_of_mem n (mem_stepReach_of_mem h)

theorem mem_reachable_of_root {st : GcState} {h : Nat}
    (hr : h ∈ rootsOf st) : h ∈ reachableSet st :=
  mem_reachIter_of_mem _ hr

theorem collect_trustedTable (st : GcState) :
    (collect st).1.trustedTable = st.trustedTable := rfl

theorem collect_rootStack (st : GcState) :
    (collect st).1.rootStack = st.rootStack := rfl

theorem collect_heap_eq (st : GcState) :
    (collect st).1.heap =
      st.heap.filter (fun e => decide (e.1 ∈ reachableSet st)) := rfl

theorem collect_finalized_eq (st : GcState) :
    (collect st).2 =
      (st.heap.filter (fun e => decide (¬ e.1 ∈ reachableSet st))).map (·.1) := rfl

theorem collect_keeps_reachable {st : GcState} {h : Nat}
    (hh : h ∈ heapHandles st) (hr : h ∈ reachableSet st) :
    h ∈ heapHandles (collect st).1 := by
  rw [heapHandles] at hh
  rcases List.mem_map.mp hh with ⟨e, he, rfl⟩
  rw [heapHandles, collect_heap_eq]
  exact List.mem_map.mpr ⟨e, List.mem_filter.mpr ⟨he, decide_eq_true hr⟩, rfl⟩

theorem collect_not_finalize_reachable {st : GcState} {h : Nat}
    (hr : h ∈ reachableSet st) : h ∉ (collect st).2 := by
  intro hmem
  rw [collect_finalized_eq] at hmem
  rcases List.mem_map.mp hmem with ⟨e, he, rfl⟩
  have hp := (List.mem_filter.mp he).2
  rw [decide_eq_true_eq] at hp
  exact hp hr

theorem collect_finalized_sub {st : GcState} {h : Nat}
    (hmem : h ∈ (collect st).2) : h ∈ heapHandles st := by
  rw [collect_finalized_eq] at hmem
  rcases List.mem_map.mp hmem with ⟨e, he, rfl⟩
  exact List.mem_map.mpr ⟨e, (List.mem_filter.mp he).1, rfl⟩

theorem collect_finalizes_unreachable {st : GcState} {h : Nat}
    (hnd : (heapHandles st).Nodup)
    (hh : h ∈ heapHandles st) (hu : h ∉ reachableSet st) :
    (collect st).2.count h = 1 ∧ h ∉ heapHandles (collect st).1 := by
  constructor
  · have hmem : h ∈ (collect st).2 := by
      rcases List.mem_map.mp hh with ⟨e, he, rfl⟩
      rw [collect_finalized_eq]
      exact List.mem_map.mpr ⟨e, List.mem_filter.mpr ⟨he, decide_eq_true hu⟩, rfl⟩
    have hndf : (collect st).2.Nodup := by
      rw [collect_finalized_eq]
      have hsub : List.Sublist
          ((st.heap.filter (fun e => decide (¬ e.1 ∈ reachableSet st))).map (·.1))
          (st.heap.map (·.1)) :=
        (List.filter_sublist st.heap).map (·.1)
      exact List.Nodup.sublist hsub hnd
    exact List.count_eq_one_of_mem hndf hmem
  · intro hmem
    rw [heapHandles, collect_heap_eq] at hmem
    rcases List.mem_map.mp hmem with ⟨e, he, heq⟩
    have hp := (List.mem_filter.mp he).2
    rw [decide_eq_true_eq, heq] at hp
    exact hu hp

/-- Modelled from the spec: a `Root<T>` value returned to the caller of
`T::new` — a rooted reference identified by the Managed-Object Handle of
the object it keeps alive. -/
structure RootRef where
  handle : Nat
  deriving DecidableEq, Repr

/-- Modelled from the spec: `T::new_inherited`, which builds the plain
aggregate with no collector involvement: the embedded handle field is
still empty. -/
def new_inherited (cls : DOMClass) (traced : List Nat) : HeapObject :=
  ⟨cls, none, traced⟩

/-- Modelled from the spec: `reflect_dom_object`: allocate a collector
side peer for the boxed aggregate (yielding ownership of the aggregate to
the collector) and store the resulting Managed-Object Handle into the
aggregate's embedded handle field. -/
def reflect_dom_object (obj : HeapObject) (st : GcState) : Nat × GcState :=
  (st.nextHandle,
   { st with
       heap := (st.nextHandle, { obj with reflectorHandle := some st.nextHandle }) :: st.heap,
       nextHandle := st.nextHandle + 1 })

/-- Modelled from the spec: `T::new`: call `new_inherited`, box the
result, reflect it, and return a rooted reference to the caller (the new
handle is pushed on the root stack, where the returned `Root` guards
it). -/
def newDomObject (cls : DOMClass) (traced : List Nat) (st : GcState) :
    RootRef × GcState :=
  let res := reflect_dom_object (new_inherited cls traced) st
  (⟨res.1⟩, { res.2 with rootStack := res.1 :: res.2.rootStack })

/-- C4: `T::new` calls `T::new_inherited`, hands the boxed aggregate to
the collector under a fresh Managed-Object Handle (a new collector heap
entry owning exactly that aggregate), stores that handle into the
aggregate's embedded handle field, and returns to the caller a rooted
reference to it — the handle now guards the top of the root stack. The
refcount table is untouched. -/
theorem new_reflects_and_roots (cls : DOMClass) (traced : List Nat) (st : GcState)
    (hwf : ∀ h ∈ heapHandles st, h < st.nextHandle) :
    (newDomObject cls traced st).1.handle = st.nextHandle ∧
    (newDomObject cls traced st).1.handle ∉ heapHandles st ∧
    (newDomObject cls traced st).2.heap =
      (st.nextHandle,
       { new_inherited cls traced with reflectorHandle := some st.nextHandle }) :: st.heap ∧
    heapLookup (newDomObject cls traced st).2.heap st.nextHandle =
      some { new_inherited cls traced with reflectorHandle := some st.nextHandle } ∧
    (newDomObject cls traced st).2.rootStack = st.nextHandle :: st.rootStack ∧
    (newDomObject cls traced st).2.trustedTable = st.trustedTable := by
  refine ⟨rfl, ?_, rfl, ?_, rfl, rfl⟩
  · intro hmem
    exact absurd (hwf _ hmem) (lt_irrefl _)
  · simp [newDomObject, reflect_dom_object, heapLookup, List.find?]

/-- Witness for C4: constructing an `Element` with one traced edge in a
state that already holds one object. -/
theorem new_reflects_and_roots_witness :
    (newDomObject .Element [0] ⟨[(0, ⟨.Node, some 0, []⟩)], [0], [], 1⟩).1.handle = 1 ∧
    (newDomObject .Element [0] ⟨[(0, ⟨.Node, some 0, []⟩)], [0], [], 1⟩).1.handle ∉
      heapHandles ⟨[(0, ⟨.Node, some 0, []⟩)], [0], [], 1⟩ ∧
    (newDomObject .Element [0] ⟨[(0, ⟨.Node, some 0, []⟩)], [0], [], 1⟩).2.heap =
      (1, { new_inherited .Element [0] with reflectorHandle := some 1 }) ::
        [(0, ⟨.Node, some 0, []⟩)] ∧
    heapLookup (newDomObject .Element [0] ⟨[(0, ⟨.Node, some 0, []⟩)], [0], [], 1⟩).2.heap 1 =
      some { new_inherited .Element [0] with reflectorHandle := some 1 } ∧
    (newDomObject .Element [0] ⟨[(0, ⟨.Node, some 0, []⟩)], [0], [], 1⟩).2.rootStack = 1 :: [0] ∧
    (newDomObject .Element [0] ⟨[(0, ⟨.Node, some 0, []⟩)], [0], [], 1⟩).2.trustedTable = [] :=
  new_reflects_and_roots .Element [0] ⟨[(0, ⟨.Node, some 0, []⟩)], [0], [], 1⟩ (by decide)

/-- C5: collection behaviour of the finalization hook. (a) While an
object is reachable from the roots and tracing-field edges, its hook does
not run and the object stays in the heap; (b) once it is unreachable, the
collection that observes this runs its hook exactly once and removes the
object (so no later collection can run the hook again); (c) hooks run
only for objects the collector actually owned. Instantiated on a cycle,
(b) reclaims and finalizes every cycle member exactly once each. -/
theorem finalize_once_when_unreachable (st : GcState) (h : Nat)
    (hnd : (heapHandles st).Nodup) :
    (h ∈ reachableSet st → h ∉ (collect st).2) ∧
    (h ∈ heapHandles st → h ∈ reachableSet st → h ∈ heapHandles (collect st).1) ∧
    (h ∈ heapHandles st → h ∉ reachableSet st →
      (collect st).2.count h = 1 ∧ h ∉ heapHandles (collect st).1) ∧
    (h ∈ (collect st).2 → h ∈ heapHandles st) := by
  refine ⟨?_, ?_, ?_, ?_⟩
  · intro hr
    exact collect_not_finalize_reachable hr
  · intro hh hr
    exact collect_keeps_reachable hh hr
  · intro hh hu
    exact collect_finalizes_unreachable hnd hh hu
  · intro hm
    exact collect_finalized_sub hm

/-- Witness for C5: the spec's two-object cycle `X ↔ Y` (handles 0 and 1
pointing at each other through tracing field wrappers) with no external
root: one collection finalizes each exactly once and removes both. -/
theorem finalize_once_when_unreachable_witness :
    (collect ⟨[(0, ⟨.Node, some 0, [1]⟩), (1, ⟨.Node, some 1, [0]⟩)], [], [], 2⟩).2.count 0 = 1 ∧
    (collect ⟨[(0, ⟨.Node, some 0, [1]⟩), (1, ⟨.Node, some 1, [0]⟩)], [], [], 2⟩).2.count 1 = 1 ∧
    0 ∉ heapHandles (collect ⟨[(0, ⟨.Node, some 0, [1]⟩), (1, ⟨.Node, some 1, [0]⟩)], [], [], 2⟩).1 ∧
    1 ∉ heapHandles (collect ⟨[(0, ⟨.Node, some 0, [1]⟩), (1, ⟨.Node, some 1, [0]⟩)], [], [], 2⟩).1 := by
  have h0 := (finalize_once_when_unreachable
    ⟨[(0, ⟨.Node, some 0, [1]⟩), (1, ⟨.Node, some 1, [0]⟩)], [], [], 2⟩ 0 (by decide)).2.2.1
    (by decide) (by decide)
  have h1 := (finalize_once_when_unreachable
    ⟨[(0, ⟨.Node, some 0, [1]⟩), (1, ⟨.Node, some 1, [0]⟩)], [], [], 2⟩ 1 (by decide)).2.2.1
    (by decide) (by decide)
  exact ⟨h0.1, h1.1, h0.2, h1.2⟩

/-- Modelled from the spec: creating or cloning a `Trusted` handle bumps
the refcount of the process-wide table entry for the target handle,
creating the entry at count 1 if absent. -/
def tableBump : List (Nat × Nat) → Nat → List (Nat × Nat)
  | [], h => [(h, 1)]
  | e :: rest, h =>
    if e.1 = h then (e.1, e.2 + 1) :: rest else e :: tableBump rest h

/-- Modelled from the spec: dropping one clone decrements the entry's
refcount, removing the entry entirely when the count reaches zero. -/
def tableDrop : List (Nat × Nat) → Nat → List (Nat × Nat)
  | [], _ => []
  | e :: rest, h =>
    if e.1 = h then (if e.2 ≤ 1 then rest else (e.1, e.2 - 1) :: rest)
    else e :: tableDrop rest h

/-- Construct a `Trusted` handle (from a currently rooted reference). -/
def trustedNew (h : Nat) (st : GcState) : GcState :=
  { st with trustedTable := tableBump st.trustedTable h }

/-- Clone a `Trusted` handle. -/
def trustedClone (h : Nat) (st : GcState) : GcState :=
  { st with trustedTable := tableBump st.trustedTable h }

/-- Drop one clone of a `Trusted` handle. -/
def trustedDrop (h : Nat) (st : GcState) : GcState :=
  { st with trustedTable := tableDrop st.trustedTable h }

theorem tableDrop_removes_last :
    ∀ (t : List (Nat × Nat)) (h : Nat),
      (t.map (·.1)).Nodup → (h, 1) ∈ t → h ∉ (tableDrop t h).map (·.1)
  | [], h, _, hm => absurd hm (List.not_mem_nil _)
  | e :: rest, h, hnd, hm => by
    rw [List.map_cons, List.nodup_cons] at hnd
    by_cases he : e.1 = h
    · have hme : e = (h, 1) := by
        rcases List.mem_cons.mp hm with hh | hh
        · exact hh.symm
        · exfalso
          exact hnd.1 (he ▸ List.mem_map.mpr ⟨(h, 1), hh, he ▸ rfl⟩)
      rw [tableDrop, if_pos he, hme]
      simp only [le_refl, if_pos]
      intro hmem
      rcases List.mem_map.mp hmem with ⟨e', he', heq⟩
      exact hnd.1 (he ▸ List.mem_map.mpr ⟨e', he', heq⟩)
    · have hmr : (h, 1) ∈ rest := by
        rcases List.mem_cons.mp hm with hh | hh
        · exact absurd (congrArg Prod.fst hh.symm) he
        · exact hh
      rw [tableDrop, if_neg he, List.map_cons]
      intro hmem
      rcases List.mem_cons.mp hmem with hh | hh
      · exact he hh.symm
      · exact tableDrop_removes_last rest h hnd.2 hmr hh

theorem trustedRoots_subset_keys {st : GcState} {h : Nat}
    (hm : h ∈ trustedRoots st) : h ∈ st.trustedTable.map (·.1) := by
  rw [trustedRoots] at hm
  rcases List.mem_map.mp hm with ⟨e, he, rfl⟩
  exact List.mem_map.mpr ⟨e, (List.mem_filter.mp he).1, rfl⟩

theorem survive_iterate (h c : Nat) :
    ∀ (n : Nat) (st : GcState),
      (h, c) ∈ st.trustedTable → 0 < c → h ∈ heapHandles st →
      h ∈ heapHandles (iterateCollect n st)
  | 0, _, _, _, hh => hh
  | n + 1, st, hm, hc, hh => by
    have hroot : h ∈ rootsOf st :=
      List.mem_append_right _
        (List.mem_map.mpr ⟨(h, c), List.mem_filter.mpr ⟨hm, decide_eq_true hc⟩, rfl⟩)
    have hkeep := collect_keeps_reachable hh (mem_reachable_of_root hroot)
    have htab : (h, c) ∈ (collect st).1.trustedTable := by
      rw [collect_trustedTable]; exact hm
    exact survive_iterate h c n (collect st).1 htab hc hkeep

/-- C8: an object held by a live `Trusted` handle (a table entry with a
positive refcount) survives every collection that runs while a clone
exists; and once the last clone is dropped, the refcount reaching zero
removes the root entry (the handle is no longer among the trusted roots),
so if nothing else reaches the object, the very next collection finalizes
it exactly once and reclaims it. -/
theorem trusted_roots_until_last_drop (st : GcState) (h c : Nat)
    (hm : (h, c) ∈ st.trustedTable) (hc : 0 < c) (hh : h ∈ heapHandles st) :
    (∀ n, h ∈ heapHandles (iterateCollect n st)) ∧
    (c = 1 → (st.trustedTable.map (·.1)).Nodup →
      h ∉ trustedRoots (trustedDrop h st) ∧
      ((heapHandles st).Nodup → h ∉ reachableSet (trustedDrop h st) →
        (collect (trustedDrop h st)).2.count h = 1 ∧
        h ∉ heapHandles (collect (trustedDrop h st)).1)) := by
  constructor
  · intro n
    exact survive_iterate h c n st hm hc hh
  · intro hone hknd
    subst hone
    constructor
    · intro hmem
      exact tableDrop_removes_last st.trustedTable h hknd hm
        (trustedRoots_subset_keys hmem)
    · intro hhnd hun
      exact collect_finalizes_unreachable hhnd hh hun

/-- Witness for C8: handle 7, reachable only through a single-clone
`Trusted` entry, survives three collections; dropping the clone removes
the root entry and the next collection finalizes it exactly once. -/
theorem trusted_roots_until_last_drop_witness :
    7 ∈ heapHandles (iterateCollect 3 ⟨[(7, ⟨.Element, some 7, []⟩)], [], [(7, 1)], 8⟩) ∧
    7 ∉ trustedRoots (trustedDrop 7 ⟨[(7, ⟨.Element, some 7, []⟩)], [], [(7, 1)], 8⟩) ∧
    (collect (trustedDrop 7 ⟨[(7, ⟨.Element, some 7, []⟩)], [], [(7, 1)], 8⟩)).2.count 7 = 1 ∧
    7 ∉ heapHandles (collect (trustedDrop 7 ⟨[(7, ⟨.Element, some 7, []⟩)], [], [(7, 1)], 8⟩)).1 := by
  have hth := trusted_roots_until_last_drop
    ⟨[(7, ⟨.Element, some 7, []⟩)], [], [(7, 1)], 8⟩ 7 1
    (by decide) (by decide) (by decide)
  have h2 := hth.2 rfl (by decide)
  have h3 := h2.2 (by decide) (by decide)
  exact ⟨hth.1 3, h2.1, h3.1, h3.2⟩

/-- Modelled from the spec: a `LayoutJS<T>` view — just the bare address
extracted from the Managed-Object Handle, with no ownership. -/
structure LayoutJS where
  addr : Nat
  deriving DecidableEq, Repr

/-- Modelled from the spec: obtaining a layout view of a DOM object from
its Managed-Object Handle. It reads the collector heap but pushes no
root-stack entry and touches no reference count: the state comes back
unchanged. Safety relies on the external scheduling guarantee that no
collection or DOM mutation runs while layout uses the view; nothing in
the operation itself keeps the object alive. -/
def layoutViewFrom (st : GcState) (h : Nat) : Option LayoutJS × GcState :=
  ((heapLookup st.heap h).map (fun _ => ⟨h⟩), st)

/-- C9: obtaining a `LayoutJS` view pushes no root-stack entry and bumps
no reference count (the collector state is returned unchanged, root stack
and trusted table included); the view is the object's own address; and
the view does not keep the object alive: if the object is otherwise
unreachable, a collection run while the view exists still finalizes and
reclaims it — which is why the external no-collection scheduling
precondition is required for safety. -/
theorem layout_view_unrooted (st : GcState) (h : Nat) :
    (layoutViewFrom st h).2 = st ∧
    (layoutViewFrom st h).2.rootStack = st.rootStack ∧
    (layoutViewFrom st h).2.trustedTable = st.trustedTable ∧
    (∀ v, (layoutViewFrom st h).1 = some v → v.addr = h) ∧
    ((heapHandles st).Nodup → h ∈ heapHandles st → h ∉ reachableSet st →
      (collect st).2.count h = 1 ∧ h ∉ heapHandles (collect st).1) := by
  refine ⟨rfl, rfl, rfl, ?_, ?_⟩
  · intro v hv
    rw [layoutViewFrom] at hv
    rcases Option.map_eq_some'.mp hv with ⟨o, _, hfo⟩
    rw [← hfo]
  · intro hnd hh hun
    exact collect_finalizes_unreachable hnd hh hun

/-- Witness for C9: taking a layout view of handle 3 leaves the state
unchanged, and since nothing roots handle 3, a collection finalizes it
despite the outstanding view. -/
theorem layout_view_unrooted_witness :
    (layoutViewFrom ⟨[(3, ⟨.Text, some 3, []⟩)], [], [], 4⟩ 3).2 =
      ⟨[(3, ⟨.Text, some 3, []⟩)], [], [], 4⟩ ∧
    (collect ⟨[(3, ⟨.Text, some 3, []⟩)], [], [], 4⟩).2.count 3 = 1 := by
  have hth := layout_view_unrooted ⟨[(3, ⟨.Text, some 3, []⟩)], [], [], 4⟩ 3
  exact ⟨hth.1, (hth.2.2.2.2 (by decide) (by decide) (by decide)).1⟩
